import Mathlib

/-!
Verification of the tfctl query-and-transformation pipeline.

Go strings are modelled as `List Char` (`GoStr`); ASCII-only case folding
mirrors the inputs exercised by the repository.  Machine `int` values are
modelled as `Int`, Go `float64` values as `Rat` (none of the verified
properties depends on floating-point rounding).  A Go slice expression that
would panic is modelled by an `Option` result (`none` = panic).  The external
regular-expression engine (`regexp.MatchString`) is modelled as an oracle
parameter `rx : GoStr → GoStr → Option Bool` (`none` = the pattern does not
compile), and the timezone environment of `Attr.Transform` as a `TzOracle`.
-/

/-- Go strings, modelled as lists of characters. -/
abbrev GoStr := List Char

/-- Shorthand turning a Lean string literal into a `GoStr`. -/
def gs (s : String) : GoStr := s.toList

/-- `strings.TrimSpace`: drop leading and trailing whitespace. -/
def trimSpace (s : GoStr) : GoStr :=
  ((s.dropWhile Char.isWhitespace).reverse.dropWhile Char.isWhitespace).reverse

/-- `strings.Split` with a single-character separator: split at every
occurrence of `sep` (empty fields are kept). -/
def splitSep (sep : Char) : GoStr → List GoStr
  | [] => [[]]
  | c :: cs =>
    if c = sep then [] :: splitSep sep cs
    else
      match splitSep sep cs with
      | [] => [[c]]
      | h :: t => (c :: h) :: t

/-- Splitting the regular-expression way (`regexp.Split` with pattern
`(sep)+`): split around each maximal run of separator characters, keeping
empty fields only at the two ends. -/
def splitRuns (p : Char → Bool) (l : GoStr) : List GoStr :=
  match h : l.dropWhile (fun c => !p c) with
  | [] => [l.takeWhile (fun c => !p c)]
  | _ :: t => l.takeWhile (fun c => !p c) :: splitRuns p (t.dropWhile p)
termination_by l.length
decreasing_by
  have h1 : (t.dropWhile p).length ≤ t.length :=
    (List.dropWhile_suffix p).length_le
  have h2 : (l.dropWhile (fun c => !p c)).length ≤ l.length :=
    (List.dropWhile_suffix _).length_le
  rw [h] at h2
  simp only [List.length_cons] at h2
  omega

/-- `strings.Contains`: `needle` occurs as a contiguous substring of `hay`. -/
def hasSub (hay needle : GoStr) : Bool :=
  match hay with
  | [] => needle.isEmpty
  | _ :: t => needle.isPrefixOf hay || hasSub t needle

theorem hasSub_iff (hay needle : GoStr) :
    hasSub hay needle = true ↔ needle <:+: hay := by
  induction hay with
  | nil =>
    simp [hasSub, List.isEmpty_iff, List.infix_nil]
  | cons c t ih =>
    simp only [hasSub, Bool.or_eq_true, ih, List.infix_cons_iff]
    constructor
    · rintro (h | h)
      · exact Or.inl ( List.isPrefixOf_iff_prefix.mp h)
      · exact Or.inr h
    · rintro (h | h)
      · exact Or.inl ( List.isPrefixOf_iff_prefix.mpr h)
      · exact Or.inr h

/-- Every field produced by `splitRuns` is a contiguous substring of the
input. -/
theorem splitRuns_infix (p : Char → Bool) (l : GoStr) :
    ∀ q ∈ splitRuns p l, q <:+: l := by
  induction l using splitRuns.induct p with
  | case1 l h =>
    intro q hq
    rw [splitRuns, h] at hq
    simp only [List.mem_singleton] at hq
    subst hq
    exact ( List.takeWhile_prefix _).isInfix
  | case2 l c t h ih =>
    intro q hq
    rw [splitRuns, h] at hq
    simp only [List.mem_cons] at hq
    rcases hq with rfl | hq
    · exact ( List.takeWhile_prefix _).isInfix
    · have h1 : q <:+: t.dropWhile p := ih q hq
      have h2 : t.dropWhile p <:+ t := List.dropWhile_suffix p
      have h3 : t <:+ l.dropWhile (fun c => !p c) := by
        rw [h]; exact List.suffix_cons c t
      have h4 : l.dropWhile (fun c => !p c) <:+ l := List.dropWhile_suffix _
      exact h1.trans (((h2.trans h3).trans h4).isInfix)

/- ### Hungarian predicate (src/internal/hungarian/hungarian.go) -/

/-- The character class `[a-z0-9]` used by `IsHungarian` to split a resource
name into parts (the regexp splits on runs of characters outside it). -/
def isLowerAlnum (c : Char) : Bool :=
  ('a' ≤ c && c ≤ 'z') || ('0' ≤ c && c ≤ '9')

/-- ASCII lowercase of a Go string (`strings.ToLower` on the repository's
ASCII inputs). -/
def goToLower (s : GoStr) : GoStr := s.map Char.toLower

/-- `IsHungarian`: true when any `_`-token of the lowercased type appears as
a whole separator-delimited part of the lowercased name, or anywhere inside
it as a substring. -/
def IsHungarian (typ name : GoStr) : Bool :=
  if typ = [] || name = [] then false
  else
    let typeLower := goToLower typ
    let nameLower := goToLower name
    let typeTokens := splitSep '_' typeLower
    let nameParts := splitRuns (fun c => !isLowerAlnum c) nameLower
    typeTokens.any fun tok =>
      tok ≠ [] && (nameParts.any (fun p => p = tok) || hasSub nameLower tok)

/-- C10: the Hungarian predicate reduces to case-insensitive substring
containment: it holds iff both arguments are non-empty and some non-empty
`_`-token of the lowercased type occurs as a substring of the lowercased
name; the whole-token check against separator-split name parts adds no
extra matches. -/
theorem hungarian_iff_substring (typ name : GoStr) :
    IsHungarian typ name = true ↔
      typ ≠ [] ∧ name ≠ [] ∧
        ∃ tok ∈ splitSep '_' (goToLower typ),
          tok ≠ [] ∧ tok <:+: goToLower name := by
  unfold IsHungarian
  by_cases h1 : typ = []
  · simp [h1]
  by_cases h2 : name = []
  · simp [h1, h2]
  rw [if_neg (by simp [h1, h2])]
  simp only [List.any_eq_true, Bool.and_eq_true, Bool.or_eq_true,
    decide_eq_true_eq, List.mem_cons]
  constructor
  · rintro ⟨tok, htok, hne, hor⟩
    refine ⟨h1, h2, tok, htok, hne, ?_⟩
    rcases hor with hp | hc
    · obtain ⟨p, hpmem, hpeq⟩ := hp
      have := splitRuns_infix (fun c => !isLowerAlnum c) (goToLower name) p hpmem
      rwa [hpeq] at this
    · exact (hasSub_iff _ _).mp hc
  · rintro ⟨-, -, tok, htok, hne, hinf⟩
    exact ⟨tok, htok, hne, Or.inr ((hasSub_iff _ _).mpr hinf)⟩

/- ### Filter expression engine (src/internal/filters/filters.go) -/

/-- The dynamic values produced by the JSON decoder for candidate fields
(`gjson.Result.Value()`): string, bool, number (`float64`, modelled as
`Rat`), list or mapping.  An absent/`nil` value is modelled as `none` at
the use sites. -/
inductive GoValue where
  | str (s : GoStr)
  | boolean (b : Bool)
  | num (x : Rat)
  | list (l : List GoValue)
  | map (m : List (GoStr × GoValue))

/-- One attribute-selection directive (`attrs.Attr`). -/
structure Attr where
  Key : GoStr
  Include : Bool
  OutputKey : GoStr
  TransformSpec : GoStr
deriving DecidableEq

/-- `attrs.AttrList`. -/
abbrev AttrList := List Attr

/-- Go's byte-wise string comparison, as a three-way comparison on
characters (coincides with Go's byte order on ASCII inputs). -/
def cmpStr : GoStr → GoStr → Ordering
  | [], [] => .eq
  | [], _ :: _ => .lt
  | _ :: _, [] => .gt
  | a :: as, b :: bs =>
    if a.val < b.val then .lt
    else if b.val < a.val then .gt
    else cmpStr as bs

/-- Digits of a decimal token as a natural number. -/
def natOfDigits (s : GoStr) : Nat :=
  s.foldl (fun acc c => 10 * acc + (c.toNat - 48)) 0

/-- Unsigned part of `strconv.ParseFloat`: decimal digits with an optional
fractional part (the plain decimal forms the filter grammar feeds it). -/
def parseUnsigned (s : GoStr) : Option Rat :=
  let ip := s.takeWhile Char.isDigit
  let rest := s.dropWhile Char.isDigit
  match rest with
  | [] => if ip = [] then none else some (natOfDigits ip)
  | '.' :: fp =>
    if fp.all Char.isDigit && !(ip = [] && fp = []) then
      some ((natOfDigits ip : Rat) + (natOfDigits fp : Rat) / ((10 : Rat) ^ fp.length))
    else none
  | _ => none

/-- `strconv.ParseFloat` on the decimal forms used by the filter engine:
optional sign followed by `parseUnsigned`; `none` models a parse error. -/
def parseGoNumber (s : GoStr) : Option Rat :=
  match s with
  | '+' :: rest => parseUnsigned rest
  | '-' :: rest => (parseUnsigned rest).map (fun q => -q)
  | _ => parseUnsigned s

/-- `fmt.Sprintf("%v", b)` for a bool. -/
def goBoolStr (b : Bool) : GoStr := if b then gs "true" else gs "false"

/-- ASCII model of `strings.EqualFold`. -/
def eqFold (a b : GoStr) : Bool := goToLower a = goToLower b

/-- The regular-expression oracle standing for `regexp.MatchString`:
`rx pattern input = none` models a pattern that fails to compile. -/
abbrev RegexOracle := GoStr → GoStr → Option Bool

/-- A candidate row, abstracting `driller.Driller(candidate.Raw, key)`:
the mapping from a (dotted) source key to its decoded value, `none`
standing for an absent/`nil` extraction. -/
abbrev Candidate := GoStr → Option GoValue

namespace filters

/-- A parsed `--filter` clause (`filters.Filter`). -/
structure Filter where
  Key : GoStr
  Negate : Bool
  Operand : GoStr
  ServerSide : Bool
  Value : GoStr

/-- `checkStringOperand`: evaluate a string-comparison clause. Unsupported
operands and invalid regular expressions evaluate to `false` regardless of
the negate flag. -/
def checkStringOperand (rx : RegexOracle) (value : GoStr) (f : Filter) : Bool :=
  if f.Operand = gs "=" then (value = f.Value) = !f.Negate
  else if f.Operand = gs "~" then (eqFold value f.Value) = !f.Negate
  else if f.Operand = gs "^" then (f.Value.isPrefixOf value) = !f.Negate
  else if f.Operand = gs ">" then (cmpStr value f.Value = .gt) = !f.Negate
  else if f.Operand = gs "<" then (cmpStr value f.Value = .lt) = !f.Negate
  else if f.Operand = gs "@" then (hasSub value f.Value) = !f.Negate
  else if f.Operand = gs "/" then
    match rx f.Value value with
    | none => false
    | some matched => matched = !f.Negate
  else false

/-- `checkNumericOperand`: numeric comparison against the parsed target.
A target that fails to parse, or an operand other than `=`, `>`, `<`,
evaluates to `false` regardless of the negate flag. -/
def checkNumericOperand (value : Rat) (f : Filter) : Bool :=
  match parseGoNumber (trimSpace f.Value) with
  | none => false
  | some tgt =>
    if f.Operand = gs "=" then (value = tgt) = !f.Negate
    else if f.Operand = gs ">" then (value > tgt) = !f.Negate
    else if f.Operand = gs "<" then (value < tgt) = !f.Negate
    else false

/-- `checkContainsOperand`: membership filtering on lists (element equal to
the clause value as a string) and maps (key existence); any other value
type evaluates to `false`. -/
def checkContainsOperand (value : GoValue) (f : Filter) : Bool :=
  match value with
  | .list l =>
    if l.any (fun item => match item with | .str s => s = f.Value | _ => false)
    then !f.Negate else f.Negate
  | .map m =>
    let found := m.any (fun kv => kv.1 = f.Value)
    if f.Negate then !found else found
  | _ => false

/-- The attribute-resolution scan of `applyFilters`: the source key of the
first attribute whose output key equals the clause key, or `""` when none
matches. -/
def lookupKey : AttrList → GoStr → GoStr
  | [], _ => []
  | a :: rest, fk => if a.OutputKey = fk then a.Key else lookupKey rest fk

/-- The per-clause body of the `applyFilters` loop (`continue` ↦ `true`,
`return false` ↦ `false`): the special `hungarian` pseudo-filter, then
attribute resolution (unknown key ↦ vacuously true), `nil` extraction ↦
false, then the operand check dispatched on the value's dynamic type. -/
def evalClause (rx : RegexOracle) (c : Candidate) (al : AttrList) (f : Filter) : Bool :=
  if f.Key = gs "hungarian" then
    match c (gs "type"), c (gs "name") with
    | some tv, some nv =>
      match tv, nv with
      | .str ts, .str ns =>
        let isH := IsHungarian ts ns
        let matchesH : Bool := f.Value = [] || f.Value = gs "true"
        let result : Bool := isH = matchesH
        if f.Negate then !result else result
      | _, _ => false
    | _, _ => false
  else
    let key := lookupKey al f.Key
    if key = [] then true
    else
      match c key with
      | none => false
      | some v =>
        match v with
        | .str s => checkStringOperand rx s f
        | .boolean b => checkStringOperand rx (goBoolStr b) f
        | .num x => checkNumericOperand x f
        | _ => if f.Operand = gs "@" then checkContainsOperand v f else true

/-- `applyFilters`: a candidate passes when no non-server-side clause
evaluates to false (server-side clauses are skipped; the loop returns
early on the first failing clause). -/
def applyFilters (rx : RegexOracle) (c : Candidate) (al : AttrList) :
    List Filter → Bool
  | [] => true
  | f :: rest =>
    if f.ServerSide then applyFilters rx c al rest
    else if evalClause rx c al f then applyFilters rx c al rest
    else false

end filters

/-- C1: a candidate row passes local filter evaluation iff every
non-server-side clause evaluates true on it (logical AND; server-side
clauses are skipped and never cause exclusion), and an empty clause list
passes every row. -/
theorem applyFilters_passes_iff_all_clauses (rx : RegexOracle) (c : Candidate)
    (al : AttrList) (fs : List filters.Filter) :
    (filters.applyFilters rx c al fs = true ↔
      ∀ f ∈ fs, f.ServerSide = false → filters.evalClause rx c al f = true) ∧
    filters.applyFilters rx c al [] = true := by
  refine ⟨?_, rfl⟩
  induction fs with
  | nil => simp [filters.applyFilters]
  | cons f rest ih =>
    rw [filters.applyFilters]
    by_cases hss : f.ServerSide
    · rw [if_pos hss, ih]
      constructor
      · intro h g hg hgss
        rcases List.mem_cons.mp hg with rfl | hg'
        · rw [hss] at hgss; cases hgss
        · exact h g hg' hgss
      · intro h g hg hgss
        exact h g (List.mem_cons_of_mem f hg) hgss
    · rw [if_neg hss]
      have hssf : f.ServerSide = false := Bool.not_eq_true _ ▸ Bool.of_not_eq_true hss
      by_cases hev : filters.evalClause rx c al f
      · rw [if_pos hev, ih]
        constructor
        · intro h g hg hgss
          rcases List.mem_cons.mp hg with rfl | hg'
          · exact hev
          · exact h g hg' hgss
        · intro h g hg hgss
          exact h g (List.mem_cons_of_mem f hg) hgss
      · rw [if_neg hev]
        constructor
        · intro h; cases h
        · intro h
          exact absurd (h f (List.mem_cons_self f rest) hssf) hev

/-- A regex oracle for witnesses: every pattern compiles and matches. -/
def rxTrue : RegexOracle := fun _ _ => some true

/-- A candidate row for witnesses: every key extracts to `nil`. -/
def cNone : Candidate := fun _ => none

/-- A candidate row for witnesses: `attributes.x` holds the number 5. -/
def cNum5 : Candidate := fun k => if k = gs "attributes.x" then some (.num 5) else none

/-- An attribute list for witnesses: output key `x` backed by
`attributes.x`. -/
def alX : AttrList := [⟨gs "attributes.x", true, gs "x", []⟩]

/-- C2: during clause evaluation (away from the `hungarian` pseudo-filter),
a clause whose key resolves to no attribute source key is vacuously true
and the remaining clauses are still evaluated, while a clause whose key
does resolve but whose extracted value is absent/`nil` excludes the row. -/
theorem evalClause_unknown_key_vs_null_value (rx : RegexOracle) (c : Candidate)
    (al : AttrList) (f : filters.Filter) (rest : List filters.Filter)
    (hk : f.Key ≠ gs "hungarian") :
    (filters.lookupKey al f.Key = [] →
      filters.evalClause rx c al f = true ∧
      filters.applyFilters rx c al (f :: rest) = filters.applyFilters rx c al rest) ∧
    (filters.lookupKey al f.Key ≠ [] →
      c (filters.lookupKey al f.Key) = none →
      filters.evalClause rx c al f = false) := by
  constructor
  · intro h0
    have hev : filters.evalClause rx c al f = true := by
      rw [filters.evalClause, if_neg hk]
      simp [h0]
    refine ⟨hev, ?_⟩
    rw [filters.applyFilters]
    by_cases hss : f.ServerSide
    · rw [if_pos hss]
    · rw [if_neg hss, if_pos hev]
  · intro h1 h2
    rw [filters.evalClause, if_neg hk]
    simp only [if_neg h1, h2]

/-- C2 witness: at concrete inputs, an unresolved clause key passes the row
while a resolved key with a `nil` extraction fails it. -/
theorem evalClause_unknown_key_vs_null_value_spot :
    filters.evalClause rxTrue cNone [] ⟨gs "x", false, gs "=", false, gs "1"⟩ = true ∧
    filters.applyFilters rxTrue cNone []
      [⟨gs "x", false, gs "=", false, gs "1"⟩] = true ∧
    filters.evalClause rxTrue cNone alX ⟨gs "x", false, gs "=", false, gs "1"⟩ = false := by
  have h1 := (evalClause_unknown_key_vs_null_value rxTrue cNone []
    ⟨gs "x", false, gs "=", false, gs "1"⟩ [] (by decide)).1 (by decide)
  have h2 := (evalClause_unknown_key_vs_null_value rxTrue cNone alX
    ⟨gs "x", false, gs "=", false, gs "1"⟩ [] (by decide)).2 (by decide) (by rfl)
  exact ⟨h1.1, h1.2, h2⟩

/-- C3 counterexample: a clause with operand `~` over a numeric candidate
value takes the numeric path, whose unsupported-operand branch returns
false for both negation flags, so negation does not complement the result
of every clause. -/
theorem negate_not_complement_spot :
    ¬ (filters.evalClause rxTrue cNum5 alX ⟨gs "x", true, gs "~", false, gs "5"⟩ =
      !filters.evalClause rxTrue cNum5 alX ⟨gs "x", false, gs "~", false, gs "5"⟩) := by
  decide

/-- C3 amended: negation complements the result of every successfully
evaluated clause — string operands `= ~ ^ < > @`, regex `/` when the
pattern compiles, numeric operands `= < >` when the target parses, and
containment on lists or maps; the failure branches (unsupported numeric
operand, unparseable numeric target, non-compiling regex, unsupported
containment type) return false for both negation flags instead. -/
theorem negate_complement_on_supported (rx : RegexOracle) (f : filters.Filter)
    (s : GoStr) (x : Rat) (v : GoValue) :
    (f.Operand ∈ [gs "=", gs "~", gs "^", gs "<", gs ">", gs "@"] →
      filters.checkStringOperand rx s { f with Negate := true } =
        !filters.checkStringOperand rx s { f with Negate := false }) ∧
    (f.Operand = gs "/" → (∃ b, rx f.Value s = some b) →
      filters.checkStringOperand rx s { f with Negate := true } =
        !filters.checkStringOperand rx s { f with Negate := false }) ∧
    (f.Operand ∈ [gs "=", gs "<", gs ">"] →
      parseGoNumber (trimSpace f.Value) ≠ none →
      filters.checkNumericOperand x { f with Negate := true } =
        !filters.checkNumericOperand x { f with Negate := false }) ∧
    ((∃ l, v = GoValue.list l) ∨ (∃ m, v = GoValue.map m) →
      filters.checkContainsOperand v { f with Negate := true } =
        !filters.checkContainsOperand v { f with Negate := false }) := by
  refine ⟨?_, ?_, ?_, ?_⟩
  · intro hmem
    simp only [List.mem_cons, List.not_mem_nil, or_false] at hmem
    rcases hmem with h | h | h | h | h | h
    · by_cases hv : s = f.Value <;>
        simp [filters.checkStringOperand, h, gs, hv]
    · by_cases hv : eqFold s f.Value = true <;>
        simp [filters.checkStringOperand, h, gs, hv]
    · by_cases hv : f.Value.isPrefixOf s = true <;>
        simp [filters.checkStringOperand, h, gs, hv]
    · by_cases hv : cmpStr s f.Value = Ordering.lt <;>
        simp [filters.checkStringOperand, h, gs, hv]
    · by_cases hv : cmpStr s f.Value = Ordering.gt <;>
        simp [filters.checkStringOperand, h, gs, hv]
    · by_cases hv : hasSub s f.Value = true <;>
        simp [filters.checkStringOperand, h, gs, hv]
  · intro h hb
    obtain ⟨b, hb⟩ := hb
    cases b <;> simp [filters.checkStringOperand, h, gs, hb]
  · intro hmem hp
    cases hq : parseGoNumber (trimSpace f.Value) with
    | none => exact absurd hq hp
    | some tgt =>
      simp only [List.mem_cons, List.not_mem_nil, or_false] at hmem
      rcases hmem with h | h | h
      · by_cases hv : x = tgt <;>
          simp [filters.checkNumericOperand, h, gs, hq, hv]
      · by_cases hv : x < tgt <;>
          simp [filters.checkNumericOperand, h, gs, hq, hv]
      · by_cases hv : x > tgt <;>
          simp [filters.checkNumericOperand, h, gs, hq, hv]
  · intro hv
    rcases hv with ⟨l, rfl⟩ | ⟨m, rfl⟩
    · by_cases hl :
        l.any (fun item => match item with | .str s => s = f.Value | _ => false) = true <;>
        simp [filters.checkContainsOperand, hl]
    · by_cases hm : m.any (fun kv => kv.1 = f.Value) = true <;>
        simp [filters.checkContainsOperand, hm]

/-- C3 amended witness: prefix-match clause `^ab` on `"abc"` is complemented
by negation. -/
theorem negate_complement_on_supported_spot :
    filters.checkStringOperand rxTrue (gs "abc") ⟨gs "x", true, gs "^", false, gs "ab"⟩ =
      !filters.checkStringOperand rxTrue (gs "abc") ⟨gs "x", false, gs "^", false, gs "ab"⟩ := by
  exact (negate_complement_on_supported rxTrue ⟨gs "x", false, gs "^", false, gs "ab"⟩
    (gs "abc") 0 (GoValue.list [])).1 (by decide)

/- ### Attribute specification compiler and value transformer
(src/internal/attrs/attrs.go) -/

namespace attrs

/-- The per-entry parse of `AttrList.Set` before upsert and
namespace-qualification: split on `:`, strip a `!` prefix (exclusion),
force exclusion of the wildcard, default the output key (final dot-segment
in single-field form, the full key when the second field is empty), and
take the optional transform chain. -/
def parseAttrSpec (spec : GoStr) : Attr :=
  let fields := splitSep ':' spec
  let key0 := trimSpace (fields.headD [])
  let bang : Bool × GoStr :=
    match key0 with
    | '!' :: rest => (false, rest)
    | _ => (true, key0)
  let key := bang.2
  let inc := if key = gs "*" then false else bang.1
  let outKey :=
    if fields.length = 1 then (splitSep '.' key).getLastD []
    else if fields.getD 1 [] ≠ [] then trimSpace (fields.getD 1 [])
    else key
  let tspec := if 2 < fields.length then trimSpace (fields.getD 2 []) else []
  { Key := key, Include := inc, OutputKey := outKey, TransformSpec := tspec }

/-- The upsert scan of `AttrList.Set`: if some entry's `Key` or `OutputKey`
equals the new entry's (unqualified) `Key`, overwrite that entry's
`Include`, `OutputKey` and `TransformSpec` in place (`some` result);
otherwise report no match (`none`). -/
def upsertAttr (attr : Attr) : AttrList → Option AttrList
  | [] => none
  | e :: rest =>
    if e.Key = attr.Key ∨ e.OutputKey = attr.Key then
      some ({ e with Include := attr.Include, OutputKey := attr.OutputKey,
                       TransformSpec := attr.TransformSpec } :: rest)
    else (upsertAttr attr rest).map (e :: ·)

/-- Namespace-qualification of a new entry's key: a leading `.` is
stripped (root-relative), otherwise a non-wildcard key is prefixed with
`attributes.`. -/
def qualifyKey (k : GoStr) : GoStr :=
  match k with
  | '.' :: rest => rest
  | _ => if k ≠ gs "*" then gs "attributes." ++ k else k

/-- Processing of one comma-separated entry by `AttrList.Set`: parse,
upsert into the accumulated list, or qualify and append. -/
def setOne (acc : AttrList) (spec : GoStr) : AttrList :=
  let attr := parseAttrSpec spec
  match upsertAttr attr acc with
  | some acc2 => acc2
  | none => acc ++ [{ attr with Key := qualifyKey attr.Key }]

end attrs

/-- `AttrList.Set`: fold every comma-separated attribute spec entry into
the list (empty and bare-wildcard specs are no-ops). -/
def AttrList.Set (a : AttrList) (value : GoStr) : AttrList :=
  if value = [] ∨ value = gs "*" then a
  else (splitSep ',' value).foldl attrs.setOne a

/-- The timezone environment of `Attr.Transform`: the `TZ` variable
(`none` when unset or empty), `time.LoadLocation` success, and the
combined RFC-3339 parse/reformat (`none` models a parse failure). -/
structure TzOracle where
  tz : Option GoStr
  locOK : GoStr → Bool
  fmtTime : GoStr → GoStr → Option GoStr

/-- `strings.ReplaceAll(spec, "t", "")` followed by the same for `"T"`. -/
def stripTT (spec : GoStr) : GoStr :=
  (spec.filter (fun c => c ≠ 't')).filter (fun c => c ≠ 'T')

/-- `strings.LastIndexAny`: index of the last character of `l` that occurs
in `cs`, `-1` when none does. -/
def lastIndexAny (l : GoStr) (cs : GoStr) : Int :=
  match l with
  | [] => -1
  | c :: rest =>
    let r := lastIndexAny rest cs
    if r ≥ 0 then r + 1
    else if cs.contains c then 0 else -1

/-- The signed value of an accumulated digit run. -/
def sgnVal (neg : Bool) (n : Nat) : Int := if neg then -(n : Int) else (n : Int)

/-- Left-to-right maximal-munch scan for the regexp `-?\d+`
(`FindAllString` followed by `strconv.Atoi`): the accumulator holds the
sign and value of the digit run currently being read; a digit run starts
at a digit, or at a `-` immediately followed by a digit. -/
def scanInts : Option (Bool × Nat) → GoStr → List Int
  | none, [] => []
  | some (neg, n), [] => [sgnVal neg n]
  | none, c :: cs =>
    if c.isDigit then scanInts (some (false, c.toNat - 48)) cs
    else if c = '-' && (cs.headD ' ').isDigit then scanInts (some (true, 0)) cs
    else scanInts none cs
  | some (neg, n), c :: cs =>
    if c.isDigit then scanInts (some (neg, 10 * n + (c.toNat - 48))) cs
    else
      sgnVal neg n ::
        (if c = '-' && (cs.headD ' ').isDigit then scanInts (some (true, 0)) cs
         else scanInts none cs)

/-- All matches of the regexp `-?\d+` over the chain, in order. -/
def findInts (l : GoStr) : List Int := scanInts none l

/-- ASCII uppercase (`strings.ToUpper` on the repository's inputs). -/
def goToUpper (s : GoStr) : GoStr := s.map Char.toUpper

/-- The string branch of `Attr.Transform` for a given transform chain:
optional timezone reformat (a parse failure strips `t`/`T` from the chain
used by the rest of the call), then the case family whose last chain index
is greater, then the last integer token of the chain as a length
transform — truncation for a positive token, middle-ellipsis for a
negative one when the string is longer than its magnitude.  The result is
`none` exactly when the Go slice bound `abs/2 - 1` is negative (a panic). -/
def transformString (tzo : TzOracle) (spec0 s0 : GoStr) : Option GoStr :=
  let tzStep : GoStr × GoStr :=
    if spec0.any (fun c => c = 't' || c = 'T') then
      match tzo.tz with
      | none => (spec0, s0)
      | some z =>
        if tzo.locOK z then
          match tzo.fmtTime z s0 with
          | some formatted => (spec0, formatted)
          | none => (stripTT spec0, s0)
        else (spec0, s0)
    else (spec0, s0)
  let spec := tzStep.1
  let lastL := lastIndexAny spec (gs "lL")
  let lastU := lastIndexAny spec (gs "uU")
  let r :=
    if lastL > lastU then goToLower tzStep.2
    else if lastU > lastL then goToUpper tzStep.2
    else tzStep.2
  if spec ≠ [] then
    match (findInts spec).getLast? with
    | none => some r
    | some l =>
      let abs := l.natAbs
      if abs < r.length then
        if l < 0 then
          let lr : Int := (abs : Int) / 2 - 1
          if lr < 0 then none
          else some (r.take lr.toNat ++ gs ".." ++ r.drop (r.length - lr.toNat))
        else some (r.take l.toNat)
      else some r
  else some r

/-- `Attr.Transform`: only string values are transformed; every other
value (nested mappings included) passes through unchanged. -/
def Attr.Transform (a : Attr) (tzo : TzOracle) (value : GoValue) : Option GoValue :=
  match value with
  | .str s => (transformString tzo a.TransformSpec s).map GoValue.str
  | v => some v

/-- C4 counterexample: compiling `"x,.attributes.x"` into an empty list
appends two entries that share the source key `attributes.x` — the
root-relative respelling does not match the already-qualified entry, so
the claimed uniqueness invariant fails. -/
theorem attrSet_duplicate_sourceKey_spot :
    (AttrList.Set [] (gs "x,.attributes.x")).map (fun a => a.Key) =
      [gs "attributes.x", gs "attributes.x"] := by
  decide

/-- The upsert scan on a list whose first matching entry is `e`: the
non-matching prefix and the suffix are returned unchanged, and exactly
`Include`, `OutputKey` and `TransformSpec` of `e` are overwritten with the
new entry's values (its `Key` is kept); nothing is appended. -/
theorem upsertAttr_overwrites (attr : Attr) (pre post : AttrList) (e : Attr)
    (hpre : ∀ f ∈ pre, ¬ (f.Key = attr.Key ∨ f.OutputKey = attr.Key))
    (he : e.Key = attr.Key ∨ e.OutputKey = attr.Key) :
    attrs.upsertAttr attr (pre ++ e :: post) =
      some (pre ++ { e with Include := attr.Include, OutputKey := attr.OutputKey, TransformSpec := attr.TransformSpec } :: post) := by
  induction pre with
  | nil =>
    rw [List.nil_append, attrs.upsertAttr, if_pos he]
    rfl
  | cons f rest ih =>
    have hf : ¬ (f.Key = attr.Key ∨ f.OutputKey = attr.Key) :=
      hpre f (List.mem_cons_self f rest)
    have ih2 := ih (fun g hg => hpre g (List.mem_cons_of_mem f hg))
    rw [List.cons_append, attrs.upsertAttr, if_neg hf, ih2]
    rfl

/-- C4 amended: re-specifying a spec entry whose parsed (pre-qualification)
key matches an existing entry's source key or output key overwrites
`Include`/`OutputKey`/`TransformSpec` on the first such entry in place —
its source key and every other entry are unchanged — and never appends
(the list keeps its length).  (The claimed global uniqueness invariant
itself fails: a root-relative respelling such as `".attributes.x"` after
`"x"` appends a second entry with the same qualified source key.) -/
theorem setOne_updates_in_place (pre post : AttrList) (e : Attr) (spec : GoStr)
    (hpre : ∀ f ∈ pre, ¬ (f.Key = (attrs.parseAttrSpec spec).Key ∨
      f.OutputKey = (attrs.parseAttrSpec spec).Key))
    (he : e.Key = (attrs.parseAttrSpec spec).Key ∨
      e.OutputKey = (attrs.parseAttrSpec spec).Key) :
    attrs.setOne (pre ++ e :: post) spec =
      pre ++ { e with Include := (attrs.parseAttrSpec spec).Include, OutputKey := (attrs.parseAttrSpec spec).OutputKey, TransformSpec := (attrs.parseAttrSpec spec).TransformSpec } :: post ∧
    (attrs.setOne (pre ++ e :: post) spec).length = (pre ++ e :: post).length := by
  have hu := upsertAttr_overwrites (attrs.parseAttrSpec spec) pre post e hpre he
  have hs : attrs.setOne (pre ++ e :: post) spec =
      pre ++ { e with Include := (attrs.parseAttrSpec spec).Include, OutputKey := (attrs.parseAttrSpec spec).OutputKey, TransformSpec := (attrs.parseAttrSpec spec).TransformSpec } :: post := by
    simp only [attrs.setOne, hu]
  refine ⟨hs, ?_⟩
  rw [hs]
  simp

/-- C4 amended witness: re-specifying `name::u` against a pre-seeded
`attributes.name` entry overwrites the transform chain on that entry in
place — the source key is kept, nothing is appended. -/
theorem setOne_updates_in_place_spot :
    attrs.setOne [⟨gs "attributes.name", true, gs "name", []⟩] (gs "name::u") =
      [⟨gs "attributes.name", true, gs "name", gs "u"⟩] ∧
    (attrs.setOne [⟨gs "attributes.name", true, gs "name", []⟩] (gs "name::u")).length = 1 := by
  have h := setOne_updates_in_place [] []
    ⟨gs "attributes.name", true, gs "name", []⟩ (gs "name::u")
    (by simp) (by decide)
  simp only [List.nil_append] at h
  refine ⟨?_, ?_⟩
  · rw [h.1]
    decide
  · rw [h.2]
    decide

/-- C5 counterexample: `"foo.bar:"` (two-field form, empty output key)
compiles to output key `foo.bar` — the full source key — not the final
dot-segment `bar` the claim states. -/
theorem attrSet_twofield_empty_output_spot :
    (AttrList.Set [] (gs "foo.bar:")).map (fun a => a.OutputKey) = [gs "foo.bar"] ∧
    (AttrList.Set [] (gs "foo.bar:")).map (fun a => a.OutputKey) ≠ [gs "bar"] := by
  constructor
  · decide
  · decide

/-- C5 amended: in two-field form with an empty output key the compiler
defaults the entry's output key to the full (bang-stripped, trimmed)
source key, which coincides with the final dot-segment only when the key
has no dots. -/
theorem parseAttrSpec_twofield_empty_output (spec k : GoStr)
    (h : splitSep ':' spec = [k, []]) :
    (attrs.parseAttrSpec spec).OutputKey = (attrs.parseAttrSpec spec).Key := by
  simp [attrs.parseAttrSpec, h]

/-- C5 amended witness: `"foo.bar:"` gets output key equal to its source
key. -/
theorem parseAttrSpec_twofield_empty_output_spot :
    (attrs.parseAttrSpec (gs "foo.bar:")).OutputKey =
      (attrs.parseAttrSpec (gs "foo.bar:")).Key := by
  exact parseAttrSpec_twofield_empty_output (gs "foo.bar:") (gs "foo.bar") (by decide)

/-- `strings.LastIndexAny` is `-1` when no character of the string is in
the class. -/
theorem lastIndexAny_of_none (l cs : GoStr)
    (h : ∀ c ∈ l, cs.contains c = false) : lastIndexAny l cs = -1 := by
  induction l with
  | nil => rfl
  | cons c rest ih =>
    rw [lastIndexAny]
    have hr : lastIndexAny rest cs = -1 :=
      ih (fun d hd => h d (List.mem_cons_of_mem c hd))
    have hc : c ∉ cs := by simpa using h c (List.mem_cons_self c rest)
    simp [hr, hc]

/-- Reduction of `transformString` for a chain with no timezone or case
tokens: only the length transform can act. -/
theorem transformString_pure_length (tzo : TzOracle) (spec s : GoStr)
    (hnt : spec.any (fun c => c = 't' || c = 'T') = false)
    (hL : lastIndexAny spec (gs "lL") = -1)
    (hU : lastIndexAny spec (gs "uU") = -1) :
    transformString tzo spec s =
      (if spec ≠ [] then
        match (findInts spec).getLast? with
        | none => some s
        | some l =>
          if l.natAbs < s.length then
            if l < 0 then
              if ((l.natAbs : Int) / 2 - 1) < 0 then none
              else some (s.take ((l.natAbs : Int) / 2 - 1).toNat ++ gs ".." ++
                s.drop (s.length - ((l.natAbs : Int) / 2 - 1).toNat))
            else some (s.take l.toNat)
          else some s
      else some s) := by
  unfold transformString
  simp only [hnt, hL, hU, Bool.false_eq_true, if_false, lt_self_iff_false]

/-- C7: on a transform chain with no timezone or case tokens, a last
integer token `N > 0` truncates the string value to its first `N`
characters (a no-op when it is already that short), and a last integer
token `N < 0` with `2 ≤ |N| < length` produces the middle-ellipsis
abbreviation: first `|N|/2 - 1` characters, `".."`, last `|N|/2 - 1`
characters. -/
theorem transform_length_token (tzo : TzOracle) (a : Attr) (s : GoStr) (N : Int)
    (hclean : ∀ c ∈ a.TransformSpec,
      c ≠ 't' ∧ c ≠ 'T' ∧ c ≠ 'l' ∧ c ≠ 'L' ∧ c ≠ 'u' ∧ c ≠ 'U')
    (hlast : (findInts a.TransformSpec).getLast? = some N) :
    (0 < N → a.Transform tzo (GoValue.str s) =
      some (GoValue.str (s.take N.toNat))) ∧
    (N < 0 → N.natAbs < s.length → 2 ≤ N.natAbs →
      a.Transform tzo (GoValue.str s) = some (GoValue.str
        (s.take (N.natAbs / 2 - 1) ++ gs ".." ++
          s.drop (s.length - (N.natAbs / 2 - 1))))) := by
  have hne : a.TransformSpec ≠ [] := by
    intro h0
    rw [h0] at hlast
    simp [findInts, scanInts] at hlast
  have hnt : a.TransformSpec.any (fun c => c = 't' || c = 'T') = false := by
    rw [List.any_eq_false]
    intro c hc
    have hcc := hclean c hc
    simp [hcc.1, hcc.2.1]
  have hL : lastIndexAny a.TransformSpec (gs "lL") = -1 := by
    refine lastIndexAny_of_none _ _ (fun c hc => ?_)
    have hcc := hclean c hc
    simp [gs, hcc.2.2.1, hcc.2.2.2.1]
  have hU : lastIndexAny a.TransformSpec (gs "uU") = -1 := by
    refine lastIndexAny_of_none _ _ (fun c hc => ?_)
    have hcc := hclean c hc
    simp [gs, hcc.2.2.2.2.1, hcc.2.2.2.2.2]
  have hred := transformString_pure_length tzo a.TransformSpec s hnt hL hU
  constructor
  · intro hpos
    have hnn : ¬ (N < 0) := by omega
    have hts : transformString tzo a.TransformSpec s = some (s.take N.toNat) := by
      rw [hred]
      simp only [hne, ne_eq, not_false_iff, if_true, hlast]
      by_cases habs : N.natAbs < s.length
      · simp [habs, hnn]
      · simp only [habs, if_false]
        rw [ List.take_of_length_le (by omega)]
    simp [Attr.Transform, hts]
  · intro hneg habs h2
    have hlr0 : ¬ (((N.natAbs : Int) / 2 - 1) < 0) := by omega
    have hlr : ((N.natAbs : Int) / 2 - 1).toNat = N.natAbs / 2 - 1 := by omega
    have hts : transformString tzo a.TransformSpec s =
        some (s.take (N.natAbs / 2 - 1) ++ gs ".." ++
          s.drop (s.length - (N.natAbs / 2 - 1))) := by
      rw [hred]
      simp only [hne, ne_eq, not_false_iff, if_true, hlast]
      simp only [habs, if_true, hneg, hlr0, if_false, hlr]
    simp [Attr.Transform, hts]

/-- C7 witness: chain `-8` on `"hello world"` yields `"hel..rld"`. -/
theorem transform_length_token_spot :
    Attr.Transform ⟨gs "attributes.name", true, gs "name", gs "-8"⟩
      ⟨none, fun _ => false, fun _ _ => none⟩ (GoValue.str (gs "hello world")) =
      some (GoValue.str (gs "hel..rld")) := by
  have h := (transform_length_token ⟨none, fun _ => false, fun _ _ => none⟩
    ⟨gs "attributes.name", true, gs "name", gs "-8"⟩ (gs "hello world") (-8)
    (by decide) (by decide)).2 (by decide) (by decide) (by decide)
  rw [h]
  rfl

/-- C9: the value transformer is not total: on any string of length at
least 2, a chain without timezone tokens whose last integer token is `-1`
(such as the chain `"-1"` itself) drives the slice bound `1/2 - 1` to `-1`
and the Go slice expression panics instead of producing a value. -/
theorem transform_chain_neg1_panics (tzo : TzOracle) (a : Attr) (s : GoStr)
    (hlen : 2 ≤ s.length)
    (hnt : ∀ c ∈ a.TransformSpec, c ≠ 't' ∧ c ≠ 'T')
    (hlast : (findInts a.TransformSpec).getLast? = some (-1)) :
    a.Transform tzo (GoValue.str s) = none := by
  have hne : a.TransformSpec ≠ [] := by
    intro h0
    rw [h0] at hlast
    simp [findInts, scanInts] at hlast
  have hany : a.TransformSpec.any (fun c => c = 't' || c = 'T') = false := by
    rw [List.any_eq_false]
    intro c hc
    have hcc := hnt c hc
    simp [hcc.1, hcc.2]
  have hts : transformString tzo a.TransformSpec s = none := by
    unfold transformString
    simp only [hany, Bool.false_eq_true, if_false]
    simp only [hne, ne_eq, not_false_iff, if_true, hlast]
    have hr : ∀ r : GoStr, r.length = s.length →
        (if (-1 : Int).natAbs < r.length then
          if (-1 : Int) < 0 then
            if (((-1 : Int).natAbs : Int) / 2 - 1) < 0 then (none : Option GoStr)
            else some (r.take (((-1 : Int).natAbs : Int) / 2 - 1).toNat ++ gs ".." ++
              r.drop (r.length - (((-1 : Int).natAbs : Int) / 2 - 1).toNat))
          else some (r.take (-1 : Int).toNat)
        else some r) = none := by
      intro r hrlen
      rw [if_pos (by omega), if_pos (by omega), if_pos (by omega)]
    split
    · exact hr _ (by simp [goToLower])
    · split
      · exact hr _ (by simp [goToUpper])
      · exact hr _ rfl
  simp [Attr.Transform, hts]

/-- C9 witness: chain `-1` on `"ab"` panics. -/
theorem transform_chain_neg1_panics_spot :
    Attr.Transform ⟨gs "attributes.name", true, gs "name", gs "-1"⟩
      ⟨none, fun _ => false, fun _ _ => none⟩ (GoValue.str (gs "ab")) = none := by
  exact transform_chain_neg1_panics ⟨none, fun _ => false, fun _ _ => none⟩
    ⟨gs "attributes.name", true, gs "name", gs "-1"⟩ (gs "ab")
    (by decide) (by decide) (by decide)

/- ### Dataset flattener (src/internal/output/spit.go, flattenState) -/

/-- Decimal digits of a natural number. -/
def natToStr (n : Nat) : GoStr := Nat.toDigits 10 n

/-- `fmt.Sprintf("%v", i)` for an integer index. -/
def intToStr (i : Int) : GoStr :=
  if i < 0 then '-' :: natToStr i.natAbs else natToStr i.toNat

/-- The index suffix of a synthetic resource identifier: nothing without
an `index_key`, `[N]` for a numeric index, `["k"]` for a string index. -/
def indexSuffix : Option (Int ⊕ GoStr) → GoStr
  | none => []
  | some (Sum.inl n) => gs "[" ++ intToStr n ++ gs "]"
  | some (Sum.inr k) => gs "[\"" ++ k ++ gs "\"]"

/-- The scan-and-replace of `ReplaceAllString` for the alternative
`(.module.)` (any character, `module`, any character) with `+`, scanning
left to right and continuing after each replacement. -/
def scanModRepl : GoStr → GoStr
  | _ :: 'm' :: 'o' :: 'd' :: 'u' :: 'l' :: 'e' :: _ :: rest =>
    '+' :: scanModRepl rest
  | c :: cs => c :: scanModRepl cs
  | [] => []

/-- `ReplaceAllString` of the pattern `(^module.)|(.module.)` with `+`:
the anchored alternative can only fire at the start; the rest of the
string is scanned for the unanchored alternative. -/
def collapseModule (s : GoStr) : GoStr :=
  match s with
  | 'm' :: 'o' :: 'd' :: 'u' :: 'l' :: 'e' :: _ :: rest => '+' :: scanModRepl rest
  | _ => scanModRepl s

/-- The synthetic `resource` identifier built by `flattenState` for one
flattened instance: module path with a trailing dot when present, the mode
with a trailing dot when it is not `managed`, then `type.name` and the
index suffix; the `module.` collapse is applied exactly when the `short`
parameter — fed from the `noshort` flag by `SliceDiceSpit` — is false. -/
def resourceID (module : Option GoStr) (mode typ name : GoStr)
    (indexKey : Option (Int ⊕ GoStr)) (short : Bool) : GoStr :=
  let m := match module with | some v => v ++ gs "." | none => []
  let md := if mode ≠ gs "managed" then mode ++ gs "." else []
  let rid := m ++ md ++ typ ++ gs "." ++ name ++ indexSuffix indexKey
  if !short then collapseModule rid else rid

/-- C6 counterexample: with the boolean unset — the default, since
`SliceDiceSpit` passes `cmd.Bool("noshort")` — the identifier for a
moduled resource is collapsed to `+a.t.n`, not the full path; the full
un-collapsed path appears exactly when the flag is set. -/
theorem resourceID_default_collapses_spot :
    resourceID (some (gs "module.a")) (gs "managed") (gs "t") (gs "n") none false =
      gs "+a.t.n" ∧
    resourceID (some (gs "module.a")) (gs "managed") (gs "t") (gs "n") none false ≠
      gs "module.a.t.n" ∧
    resourceID (some (gs "module.a")) (gs "managed") (gs "t") (gs "n") none true =
      gs "module.a.t.n" := by
  refine ⟨by decide, by decide, by decide⟩

/-- C6 amended: the polarity is the reverse of the claim — the synthetic
resource identifier carries the full un-collapsed module path only when
the `noshort` boolean is selected, and by default (`noshort` false) the
`module.` segments are collapsed into `+` markers, nested paths included
(`module.a.module.b` becomes `+a+b`). -/
theorem resourceID_collapse_polarity (module : Option GoStr)
    (mode typ name : GoStr) (idx : Option (Int ⊕ GoStr)) :
    (resourceID module mode typ name idx true =
      (match module with | some v => v ++ gs "." | none => []) ++
        (if mode ≠ gs "managed" then mode ++ gs "." else []) ++
        typ ++ gs "." ++ name ++ indexSuffix idx) ∧
    (resourceID module mode typ name idx false =
      collapseModule
        ((match module with | some v => v ++ gs "." | none => []) ++
          (if mode ≠ gs "managed" then mode ++ gs "." else []) ++
          typ ++ gs "." ++ name ++ indexSuffix idx)) ∧
    resourceID (some (gs "module.a.module.b")) (gs "managed") (gs "t") (gs "n")
      none false = gs "+a+b.t.n" := by
  refine ⟨rfl, rfl, by decide⟩

/- ### Sort engine
The `SortDataset` implementation is code of this repository that is not
under `src/` — only its caller (`SliceDiceSpit`, src/internal/output/spit.go
line 258) and its unit test are — so the definitions below are modelled
from the spec (§3 SortKey, §4.5 Sort Engine). -/

/-- Modelled from the spec: a compiled sort key
(`{ field, descending, caseSensitive }`). -/
structure SortKey where
  field : GoStr
  descending : Bool
  caseSensitive : Bool

/-- Modelled from the spec: the sort-specification parser — comma-separated
field names, a leading `-` marking that key descending, a following `!`
marking it case-sensitive. -/
def parseSortSpec (spec : GoStr) : List SortKey :=
  if spec = [] then []
  else
    (splitSep ',' spec).map fun ks =>
      let p1 : Bool × GoStr := match ks with | '-' :: r => (true, r) | k => (false, k)
      let p2 : Bool × GoStr := match p1.2 with | '!' :: r => (true, r) | k => (false, k)
      { field := p2.2, descending := p1.1, caseSensitive := p2.1 }

/-- A flattened/extracted row as seen by the sorter: ordered field-name to
value pairs. -/
abbrev Row := List (GoStr × GoValue)

/-- Field lookup in a row (`row[key]`; `none` for an absent field). -/
def rowGet (r : Row) (k : GoStr) : Option GoValue :=
  match r.find? (fun kv => kv.1 = k) with
  | some kv => some kv.2
  | none => none

/-- Modelled from the spec: a value "decodes as a number" exactly when it
is a JSON number. -/
def toNum : Option GoValue → Option Rat
  | some (GoValue.num x) => some x
  | _ => none

/-- Modelled from the spec: the string form used for non-numeric
comparison; an absent value sorts as the empty string (the spec fixes the
form only for strings and booleans, numbers get a simple decimal form). -/
def valStr : Option GoValue → GoStr
  | some (GoValue.str s) => s
  | some (GoValue.boolean b) => goBoolStr b
  | some (GoValue.num x) =>
    (if x < 0 then gs "-" else []) ++ natToStr x.num.natAbs ++
      (if x.den = 1 then [] else gs "/" ++ natToStr x.den)
  | _ => []

/-- Three-way comparison of rationals. -/
def cmpRat (a b : Rat) : Ordering :=
  if a < b then .lt else if b < a then .gt else .eq

/-- Modelled from the spec: per-key comparison — numeric when both values
decode as numbers, otherwise string comparison case-folded to lowercase
unless the key is case-sensitive; `descending` flips this key's result
only. -/
def cmpKey (k : SortKey) (a b : Row) : Ordering :=
  let va := rowGet a k.field
  let vb := rowGet b k.field
  let o :=
    match toNum va, toNum vb with
    | some x, some y => cmpRat x y
    | _, _ =>
      if k.caseSensitive then cmpStr (valStr va) (valStr vb)
      else cmpStr (goToLower (valStr va)) (goToLower (valStr vb))
  if k.descending then o.swap else o

/-- Modelled from the spec: multi-key comparison with left-to-right
precedence — earlier keys take priority, later keys break ties. -/
def cmpRows (ks : List SortKey) (a b : Row) : Ordering :=
  match ks with
  | [] => .eq
  | k :: rest =>
    match cmpKey k a b with
    | .eq => cmpRows rest a b
    | o => o

/-- Stable insertion: the new row goes in front of the first resident row
that is not strictly below it. -/
def insertRow (lt : Row → Row → Bool) (x : Row) : List Row → List Row
  | [] => [x]
  | y :: ys => if lt y x then y :: insertRow lt x ys else x :: y :: ys

/-- Stable insertion sort. -/
def stableSort (lt : Row → Row → Bool) : List Row → List Row
  | [] => []
  | x :: xs => insertRow lt x (stableSort lt xs)

/-- Modelled from the spec: `SortDataset` — stable multi-key sort of the
rows by the compiled key list; an empty spec leaves the order unchanged. -/
def SortDataset (rows : List Row) (spec : GoStr) : List Row :=
  match parseSortSpec spec with
  | [] => rows
  | ks => stableSort (fun a b => cmpRows ks a b = .lt) rows

/-- C8: sort spec `count,-name` over the rows
`[{count:1,name:"b"}, {count:1,name:"a"}, {count:0,name:"z"}]` orders them
`count:0/z`, then `count:1/b`, then `count:1/a` — ascending on the primary
key, with the `-` prefix flipping only the secondary key. -/
theorem sortDataset_multikey_example :
    SortDataset
      [[(gs "count", GoValue.num 1), (gs "name", GoValue.str (gs "b"))],
       [(gs "count", GoValue.num 1), (gs "name", GoValue.str (gs "a"))],
       [(gs "count", GoValue.num 0), (gs "name", GoValue.str (gs "z"))]]
      (gs "count,-name") =
      [[(gs "count", GoValue.num 0), (gs "name", GoValue.str (gs "z"))],
       [(gs "count", GoValue.num 1), (gs "name", GoValue.str (gs "b"))],
       [(gs "count", GoValue.num 1), (gs "name", GoValue.str (gs "a"))]] := by
  rfl
